import Mathlib

/-!
Shallow embedding of the raycaster engine (files `pywolf/raycaster.py` and
`python/pyraycaster/raycaster.py`).  Python floats are embedded as exact
rationals (for the marching, map and buffer code) and as reals (for the
angle-based intersection code); Python `int()` truncation toward zero is
embedded explicitly.
-/

/-- Python `int(q)` on a rational: truncation toward zero. -/
def pyint (q : ℚ) : ℤ := if 0 ≤ q then ⌊q⌋ else ⌈q⌉

/-- Python `int(r)` on a real: truncation toward zero. -/
noncomputable def pyintR (r : ℝ) : ℤ := if 0 ≤ r then ⌊r⌋ else ⌈r⌉

/-- 2-D vector over a scalar type, as `Vec2` from `vector.py`. -/
structure Vec2 (α : Type) where
  x : α
  y : α
deriving DecidableEq

instance {α : Type} [Add α] : Add (Vec2 α) := ⟨fun a b => ⟨a.x + b.x, a.y + b.y⟩⟩

instance {α : Type} [Sub α] : Sub (Vec2 α) := ⟨fun a b => ⟨a.x - b.x, a.y - b.y⟩⟩

instance {α : Type} [Mul α] : SMul α (Vec2 α) := ⟨fun k v => ⟨k * v.x, k * v.y⟩⟩

@[simp] theorem Vec2.add_x {α : Type} [Add α] (a b : Vec2 α) : (a + b).x = a.x + b.x := rfl

@[simp] theorem Vec2.add_y {α : Type} [Add α] (a b : Vec2 α) : (a + b).y = a.y + b.y := rfl

@[simp] theorem Vec2.sub_x {α : Type} [Sub α] (a b : Vec2 α) : (a - b).x = a.x - b.x := rfl

@[simp] theorem Vec2.sub_y {α : Type} [Sub α] (a b : Vec2 α) : (a - b).y = a.y - b.y := rfl

@[simp] theorem Vec2.smul_x {α : Type} [Mul α] (k : α) (v : Vec2 α) : (k • v).x = k * v.x := rfl

@[simp] theorem Vec2.smul_y {α : Type} [Mul α] (k : α) (v : Vec2 α) : (k • v).y = k * v.y := rfl

/-- Coerce a rational vector to a real vector. -/
noncomputable def Vec2.toR (v : Vec2 ℚ) : Vec2 ℝ := ⟨(v.x : ℝ), (v.y : ℝ)⟩

/-- Modelled from the spec: `math.atan2(y, x)` (the file `vector.py` is not
under `src/`); the spec defines `angle() = atan2(y, x)` with range `(-π, π]`. -/
noncomputable def atan2 (y x : ℝ) : ℝ :=
  if 0 < x then Real.arctan (y / x)
  else if x < 0 then
    (if 0 ≤ y then Real.arctan (y / x) + Real.pi else Real.arctan (y / x) - Real.pi)
  else
    (if 0 < y then Real.pi / 2 else if y < 0 then -(Real.pi / 2) else 0)

/-- Modelled from the spec: `Vec2.angle()` from the missing `vector.py`,
specified as `atan2(y, x)`. -/
noncomputable def Vec2.angle (v : Vec2 ℝ) : ℝ := atan2 v.y v.x

/-- The character-to-wall-id translation of `Raycaster.load_map` (pywolf):
digit characters map to their numeric value, any other character to 0. -/
def translateChar (c : Char) : ℕ := if '0' ≤ c ∧ c ≤ '9' then c.toNat - '0'.toNat else 0

/-- The map rows of `Raycaster.load_map` (pywolf), as written in the source
(top row first; the loader reverses them so `(0,0)` is bottom left). -/
def cmapRows : List String :=
  ["11111111111111111111",
   "1..................1",
   "1..111111222222.2221",
   "1.....1.....2......1",
   "1.....1.....2......1",
   "1...111.....2222...1",
   "1.....1222..2......1",
   "1......222..2.1.2.11",
   "1.........s........1",
   "11111111111111111111"]

/-- The parsed wall grid produced by `Raycaster.load_map` (pywolf):
rows reversed, each character translated to a wall id; `map[y][x]`. -/
def pywolfMap : List (List ℕ) := cmapRows.reverse.map (fun s => s.data.map translateChar)

/-- `len(self.map[0])` in `map_square`. -/
def mapWidth : ℕ := (pywolfMap.headD []).length

/-- `len(self.map)` in `map_square`. -/
def mapHeight : ℕ := pywolfMap.length

/-- The stored wall id `self.map[my][mx]` (only meaningful in bounds). -/
def wallAt (mx my : ℤ) : ℕ := (pywolfMap.getD my.toNat []).getD mx.toNat 0

/-- `Raycaster.map_square(x, y)` (pywolf): truncate the world coordinates
with `int()`, return the sentinel 255 off the grid, else the stored id. -/
def map_square (x y : ℚ) : ℕ :=
  let mx := pyint x
  let my := pyint y
  if mx < 0 ∨ (mapWidth : ℤ) ≤ mx ∨ my < 0 ∨ (mapHeight : ℤ) ≤ my then 255
  else wallAt mx my

/-- `Raycaster.BLACK_DISTANCE`. -/
def BLACK_DISTANCE : ℚ := 4.0

/-- The fixed ray-march step `step_size` in `cast_ray`. -/
def step_size : ℚ := 0.02

/-- `Raycaster.brightness(distance)`: `max(0.0, 1.0 - distance / BLACK_DISTANCE)`. -/
def brightness (distance : ℚ) : ℚ := max 0 (1 - distance / BLACK_DISTANCE)

/-- Python `t % 1.0` for a finite float `t`: `t - floor(t)`, always in `[0,1)`. -/
def pymod1 (q : ℚ) : ℚ := q - ⌊q⌋

/-- `Texture.SIZE` (pywolf). -/
def TEXTURE_SIZE : ℕ := 64

/-- The index computation of `Texture.sample` (pywolf):
`int((t % 1.0) * self.SIZE)`. -/
def sample_index (t : ℚ) : ℤ := pyint (pymod1 t * (TEXTURE_SIZE : ℚ))

/-- `Texture.sample(x, y)` (pywolf) over an abstract stored image:
`self.image[int((x % 1.0)*SIZE), int((y % 1.0)*SIZE)]`; the image lookup is
partial (`none` where no pixel is stored). -/
def texture_sample (img : ℤ → ℤ → Option (ℤ × ℤ × ℤ)) (x y : ℚ) : Option (ℤ × ℤ × ℤ) :=
  img (sample_index x) (sample_index y)

/-- The center `Vec2(int(cast_ray.x) + 0.5, int(cast_ray.y) + 0.5)` of the
map square containing the sample point. -/
noncomputable def square_center (cast_ray : Vec2 ℝ) : Vec2 ℝ :=
  ⟨(pyintR cast_ray.x : ℝ) + 0.5, (pyintR cast_ray.y : ℝ) + 0.5⟩

/-- The four wall edges; `mapstuff.Intersection` (pyraycaster) and the
tagged strings "top"/"bottom"/"left"/"right" (pywolf). -/
inductive Intersection where
  | TOP
  | BOTTOM
  | LEFT
  | RIGHT
deriving DecidableEq

open Intersection in
/-- `Raycaster.intersection_with_mapsquare_accurate(camera, cast_ray)`
(pyraycaster): classify the struck edge by quadrant and angle comparison
with the corner vertex, then compute the exact intersection coordinates;
returns `(side, texture coordinate, intersection point)`. -/
noncomputable def intersection_with_mapsquare_accurate (camera cast_ray : Vec2 ℝ) :
    Intersection × ℝ × Vec2 ℝ :=
  let direction := cast_ray - camera
  let sc := square_center cast_ray
  let intersects :=
    if camera.x < sc.x then
      if camera.y < sc.y then
        let vertex_angle := ((sc + (⟨-0.5, -0.5⟩ : Vec2 ℝ)) - camera).angle
        if direction.angle < vertex_angle then BOTTOM else LEFT
      else
        let vertex_angle := ((sc + (⟨-0.5, 0.5⟩ : Vec2 ℝ)) - camera).angle
        if direction.angle < vertex_angle then LEFT else TOP
    else
      if camera.y < sc.y then
        let vertex := (sc + (⟨0.5, -0.5⟩ : Vec2 ℝ)) - camera
        let vertexFlip : Vec2 ℝ := ⟨-vertex.x, vertex.y⟩
        let positive_dir : Vec2 ℝ := ⟨-direction.x, direction.y⟩
        if positive_dir.angle < vertexFlip.angle then BOTTOM else RIGHT
      else
        let vertex := (sc + (⟨0.5, 0.5⟩ : Vec2 ℝ)) - camera
        let vertexFlip : Vec2 ℝ := ⟨-vertex.x, vertex.y⟩
        let positive_dir : Vec2 ℝ := ⟨-direction.x, direction.y⟩
        if positive_dir.angle < vertexFlip.angle then RIGHT else TOP
  match intersects with
  | TOP =>
      let iy := sc.y + 0.5
      let ix := if direction.y = 0 then 0 else camera.x + (iy - camera.y) * direction.x / direction.y
      (TOP, -ix, ⟨ix, iy⟩)
  | BOTTOM =>
      let iy := sc.y - 0.5
      let ix := if direction.y = 0 then 0 else camera.x + (iy - camera.y) * direction.x / direction.y
      (BOTTOM, ix, ⟨ix, iy⟩)
  | LEFT =>
      let ix := sc.x - 0.5
      let iy := if direction.x = 0 then 0 else camera.y + (ix - camera.x) * direction.y / direction.x
      (LEFT, -iy, ⟨ix, iy⟩)
  | RIGHT =>
      let ix := sc.x + 0.5
      let iy := if direction.x = 0 then 0 else camera.y + (ix - camera.x) * direction.y / direction.x
      (RIGHT, iy, ⟨ix, iy⟩)

open Intersection in
/-- `Raycaster.intersection_with_mapsquare(camera, cast_ray)` (pywolf):
same edge classification, returns `(texture coordinate, intersection point)`. -/
noncomputable def intersection_with_mapsquare (camera cast_ray : Vec2 ℝ) : ℝ × Vec2 ℝ :=
  let direction := cast_ray - camera
  let sc := square_center cast_ray
  let intersects :=
    if camera.x < sc.x then
      if camera.y < sc.y then
        let vertex_angle := ((sc + (⟨-0.5, -0.5⟩ : Vec2 ℝ)) - camera).angle
        if direction.angle < vertex_angle then BOTTOM else LEFT
      else
        let vertex_angle := ((sc + (⟨-0.5, 0.5⟩ : Vec2 ℝ)) - camera).angle
        if direction.angle < vertex_angle then LEFT else TOP
    else
      if camera.y < sc.y then
        let vertex := (sc + (⟨0.5, -0.5⟩ : Vec2 ℝ)) - camera
        let vertexFlip : Vec2 ℝ := ⟨-vertex.x, vertex.y⟩
        let positive_dir : Vec2 ℝ := ⟨-direction.x, direction.y⟩
        if positive_dir.angle < vertexFlip.angle then BOTTOM else RIGHT
      else
        let vertex := (sc + (⟨0.5, 0.5⟩ : Vec2 ℝ)) - camera
        let vertexFlip : Vec2 ℝ := ⟨-vertex.x, vertex.y⟩
        let positive_dir : Vec2 ℝ := ⟨-direction.x, direction.y⟩
        if positive_dir.angle < vertexFlip.angle then RIGHT else TOP
  match intersects with
  | TOP =>
      let iy := sc.y + 0.5
      let ix := if direction.y = 0 then 0 else camera.x + (iy - camera.y) * direction.x / direction.y
      (sc.x + 0.5 - ix, ⟨ix, iy⟩)
  | BOTTOM =>
      let iy := sc.y - 0.5
      let ix := if direction.y = 0 then 0 else camera.x + (iy - camera.y) * direction.x / direction.y
      (ix - sc.x + 0.5, ⟨ix, iy⟩)
  | LEFT =>
      let ix := sc.x - 0.5
      let iy := if direction.x = 0 then 0 else camera.y + (ix - camera.x) * direction.y / direction.x
      (sc.y + 0.5 - iy, ⟨ix, iy⟩)
  | RIGHT =>
      let ix := sc.x + 0.5
      let iy := if direction.x = 0 then 0 else camera.y + (ix - camera.x) * direction.y / direction.x
      (iy - sc.y + 0.5, ⟨ix, iy⟩)

/-- The `while distance <= BLACK_DISTANCE` march of `cast_ray`, one recursion
step per loop iteration (the fuel argument only bounds the recursion; the
loop condition itself always fails before 202 iterations since the distance
grows by exactly `step_size` each pass).  Returns the first non-empty square
with its distance and sample point, or `(-1, distance, ray)` on cutoff. -/
def marchLoop (ray_step : Vec2 ℚ) : ℕ → ℚ → Vec2 ℚ → ℤ × ℚ × Vec2 ℚ
  | 0, dist, ray => (-1, dist, ray)
  | fuel + 1, dist, ray =>
    if dist ≤ BLACK_DISTANCE then
      let dist' := dist + step_size
      let ray' := ray + ray_step
      let square := map_square ray'.x ray'.y
      if square ≠ 0 then ((square : ℤ), dist', ray')
      else marchLoop ray_step fuel dist' ray'
    else (-1, dist, ray)

/-- `Raycaster.cast_ray(pixel_x)` (pywolf), as a function of the player state
it reads: compute the ray through the column, march it in `step_size`
increments, and on a hit compute the wall texture coordinate from the exact
intersection; returns `(wall id or -1, perpendicular distance, texture x)`. -/
noncomputable def cast_ray (pos dir plane : Vec2 ℚ) (pixwidth pixel_x : ℕ) : ℤ × ℚ × ℝ :=
  let camera_plane_ray := (((pixel_x : ℚ) / (pixwidth : ℚ) - 0.5) * 2) • plane
  let ray_dir := dir + camera_plane_ray
  let ray_step := step_size • ray_dir
  match marchLoop ray_step 202 0 pos with
  | (square, dist, ray) =>
    if square = -1 then (-1, dist, 0)
    else (square, dist, (intersection_with_mapsquare pos.toR ray.toR).1)

/-- A pixel color with alpha channel, `(r, g, b, a)`. -/
abbrev Rgba : Type := ℤ × ℤ × ℤ × ℤ

/-- The framebuffer and depth buffer owned by the renderer (pyraycaster);
buffers are indexed by `x + y * pixwidth`. -/
structure PixState where
  zbuffer : ℕ → WithTop ℚ
  image : ℕ → Option Rgba

/-- `Raycaster.color_brightness(rgba, brightness)` (pyraycaster): scale the
r, g, b channels, truncating with `int()`; alpha unchanged. -/
def color_brightness (rgba : Rgba) (b : ℚ) : Rgba :=
  (pyint ((rgba.1 : ℚ) * b), pyint ((rgba.2.1 : ℚ) * b), pyint ((rgba.2.2.1 : ℚ) * b), rgba.2.2.2)

/-- `Raycaster.set_pixel(x, y, z, brightness, rgba)` (pyraycaster): when
`rgba` is truthy (any 4-tuple; only `None` is falsy) and `z` is strictly
nearer than the stored depth, store `z` and write the (brightness-adjusted)
color. -/
def set_pixel (st : PixState) (pixwidth x y : ℕ) (z : ℚ) (b : ℚ) (rgba : Option Rgba) :
    PixState :=
  match rgba with
  | none => st
  | some c =>
    if (z : WithTop ℚ) < st.zbuffer (x + y * pixwidth) then
      { zbuffer := fun i => if i = x + y * pixwidth then (z : WithTop ℚ) else st.zbuffer i,
        image := fun i =>
          if i = x + y * pixwidth then
            some (if 0 < z ∧ b ≠ 1 then color_brightness c b else c)
          else st.image i }
    else st

/-- `Raycaster.draw_black_column(x, ceiling, distance)` (pyraycaster): write
the color `(0, 0, 0, 0)` at brightness 1.0 over the column's vertical extent
`range(start_y, start_y + num_pixels)`. -/
def draw_black_column (st : PixState) (pixwidth pixheight x : ℕ) (ceiling : ℤ) (dist : ℚ) :
    PixState :=
  let start_y : ℤ := max 0 ceiling
  let num_pixels : ℤ := (pixheight : ℤ) - 2 * start_y
  (List.range num_pixels.toNat).foldl
    (fun s k => set_pixel s pixwidth x (start_y.toNat + k) dist 1 (some (0, 0, 0, 0))) st

/-- `self.empty_zbuffer`: every cell is `float("inf")`. -/
def empty_zbuffer : ℕ → WithTop ℚ := fun _ => ⊤

/-- The depth-buffer reset `self.zbuffer[:] = self.empty_zbuffer` at the
start of `Raycaster.tick` (pyraycaster). -/
def tick_reset (st : PixState) : PixState := { st with zbuffer := empty_zbuffer }

/-- One recorded `set_pixel` call. -/
structure PixWrite where
  pixwidth : ℕ
  x : ℕ
  y : ℕ
  z : ℚ
  b : ℚ
  rgba : Option Rgba

/-- A sequence of `set_pixel` calls applied in order. -/
def apply_writes (st : PixState) (ws : List PixWrite) : PixState :=
  ws.foldl (fun s w => set_pixel s w.pixwidth w.x w.y w.z w.b w.rgba) st

/-- `Raycaster._move_player(x, y)` (pywolf and pyraycaster): reject the move
if the destination cell is not empty; otherwise apply the four sequential
clearance probes, each snapping one coordinate, and set the position. -/
def move_player (p : Vec2 ℚ) (x y : ℚ) : Vec2 ℚ :=
  if map_square x y = 0 then
    let x1 := if map_square (x + 0.1) y ≠ 0 then (pyint x : ℚ) + 0.9 else x
    let x2 := if map_square (x1 - 0.1) y ≠ 0 then (pyint x1 : ℚ) + 0.1 else x1
    let y1 := if map_square x2 (y + 0.1) ≠ 0 then (pyint y : ℚ) + 0.9 else y
    let y2 := if map_square x2 (y1 - 0.1) ≠ 0 then (pyint y1 : ℚ) + 0.1 else y1
    ⟨x2, y2⟩
  else p

/-- The two sequential x-axis clearance probes of `_move_player`. -/
def probe_x (x y : ℚ) : ℚ :=
  let x1 := if map_square (x + 0.1) y ≠ 0 then (pyint x : ℚ) + 0.9 else x
  if map_square (x1 - 0.1) y ≠ 0 then (pyint x1 : ℚ) + 0.1 else x1

/-- The two sequential y-axis clearance probes of `_move_player`, evaluated
at the already-snapped x coordinate. -/
def probe_y (x2 y : ℚ) : ℚ :=
  let y1 := if map_square x2 (y + 0.1) ≠ 0 then (pyint y : ℚ) + 0.9 else y
  if map_square x2 (y1 - 0.1) ≠ 0 then (pyint y1 : ℚ) + 0.1 else y1

/-- The body of the `draw_black_column` loop, folded over a list of row
offsets. -/
def black_fold (pw x sy : ℕ) (d : ℚ) (l : List ℕ) (st : PixState) : PixState :=
  l.foldl (fun s k => set_pixel s pw x (sy + k) d 1 (some (0, 0, 0, 0))) st

theorem pyint_of_nonneg {q : ℚ} (h : 0 ≤ q) : pyint q = ⌊q⌋ := by
  simp [pyint, h]

theorem pyint_intCast (n : ℤ) : pyint (n : ℚ) = n := by
  rcases le_or_lt 0 (n : ℚ) with h | h
  · simp [pyint, h]
  · simp [pyint, not_le.mpr h, le_of_lt h]

theorem pyint_eq_of_bounds {c : ℤ} {q : ℚ} (h0 : 0 ≤ q) (h1 : (c : ℚ) ≤ q)
    (h2 : q < c + 1) : pyint q = c := by
  rw [pyint_of_nonneg h0]
  exact Int.floor_eq_iff.mpr ⟨h1, by exact_mod_cast h2⟩

theorem pyint_lt_zero_iff (q : ℚ) : pyint q < 0 ↔ q ≤ -1 := by
  unfold pyint
  split
  · next h =>
    constructor
    · intro hf
      exact absurd (Int.floor_nonneg.mpr h) (not_le.mpr hf)
    · intro hq
      linarith
  · next h =>
    push_neg at h
    constructor
    · intro hc
      have h1 : ⌈q⌉ ≤ -1 := by omega
      exact_mod_cast Int.ceil_le.mp h1
    · intro hq
      have h1 : ⌈q⌉ ≤ -1 := Int.ceil_le.mpr (by exact_mod_cast hq)
      omega

theorem le_pyint_iff {n : ℤ} (hn : 0 < n) (q : ℚ) : n ≤ pyint q ↔ (n : ℚ) ≤ q := by
  unfold pyint
  split
  · next h => exact Int.le_floor
  · next h =>
    push_neg at h
    constructor
    · intro hc
      have h1 : ⌈q⌉ ≤ 0 := Int.ceil_le.mpr (by exact_mod_cast le_of_lt h)
      omega
    · intro hq
      have : (0 : ℚ) < q := lt_of_lt_of_le (by exact_mod_cast hn) hq
      exact absurd this (not_lt.mpr (le_of_lt h))

theorem pyint_neg_fraction {q : ℚ} (h1 : -1 < q) (h2 : q < 0) : pyint q = 0 := by
  unfold pyint
  rw [if_neg (not_le.mpr h2)]
  rw [Int.ceil_eq_iff]
  constructor
  · exact_mod_cast h1
  · exact_mod_cast le_of_lt h2

theorem mapWidth_eq : mapWidth = 20 := by decide

theorem mapHeight_eq : mapHeight = 10 := by decide

theorem wallAt_ne_sentinel : ∀ i : ℕ, i < 20 → ∀ j : ℕ, j < 10 → wallAt i j ≠ 255 := by
  decide

theorem map_square_eq (x y : ℚ) :
    map_square x y =
      if pyint x < 0 ∨ 20 ≤ pyint x ∨ pyint y < 0 ∨ 10 ≤ pyint y then 255
      else wallAt (pyint x) (pyint y) := by
  simp only [map_square, mapWidth_eq, mapHeight_eq]
  norm_num

theorem wallAt_int_ne_sentinel {a b : ℤ} (ha0 : 0 ≤ a) (ha : a < 20) (hb0 : 0 ≤ b)
    (hb : b < 10) : wallAt a b ≠ 255 := by
  rw [show a = ((a.toNat : ℕ) : ℤ) from (Int.toNat_of_nonneg ha0).symm,
      show b = ((b.toNat : ℕ) : ℤ) from (Int.toNat_of_nonneg hb0).symm]
  exact wallAt_ne_sentinel a.toNat (by omega) b.toNat (by omega)

/-- C8: `brightness(d)` is non-increasing in `d`, nonnegative everywhere and
at most 1 for every nonnegative distance, and equal to 0 for every distance
at least `BLACK_DISTANCE`. -/
theorem C8_brightness_monotone_bounded_black :
    (∀ d1 d2 : ℚ, d1 ≤ d2 → brightness d2 ≤ brightness d1) ∧
    (∀ d : ℚ, 0 ≤ brightness d) ∧
    (∀ d : ℚ, 0 ≤ d → brightness d ≤ 1) ∧
    (∀ d : ℚ, BLACK_DISTANCE ≤ d → brightness d = 0) := by
  refine ⟨?_, ?_, ?_, ?_⟩
  · intro d1 d2 h
    unfold brightness BLACK_DISTANCE
    exact max_le_max le_rfl (by norm_num; linarith)
  · intro d
    exact le_max_left 0 _
  · intro d hd
    unfold brightness BLACK_DISTANCE
    refine max_le (by norm_num) ?_
    norm_num
    linarith
  · intro d hd
    unfold BLACK_DISTANCE at hd
    unfold brightness BLACK_DISTANCE
    refine max_eq_left ?_
    norm_num at hd ⊢
    linarith

/-- Witness for C8 at concrete distances 1 and 5. -/
theorem C8_brightness_witness :
    brightness 5 ≤ brightness 1 ∧ 0 ≤ brightness 1 ∧ brightness 1 ≤ 1 ∧ brightness 5 = 0 :=
  ⟨C8_brightness_monotone_bounded_black.1 1 5 (by norm_num),
   C8_brightness_monotone_bounded_black.2.1 1,
   C8_brightness_monotone_bounded_black.2.2.1 1 (by norm_num),
   C8_brightness_monotone_bounded_black.2.2.2 5 (by norm_num [BLACK_DISTANCE])⟩

/-- C9: `Texture.sample` wraps each coordinate with nonnegative mod-1
semantics into `[0,1)` before indexing, the resulting pixel indices lie in
`[0, 63]`, and hence the stored-pixel access is in bounds for any image
defined on that index range. -/
theorem C9_texture_sample_in_bounds :
    ∀ x y : ℚ, ∀ img : ℤ → ℤ → Option (ℤ × ℤ × ℤ),
      (0 ≤ pymod1 x ∧ pymod1 x < 1) ∧
      (0 ≤ sample_index x ∧ sample_index x ≤ 63) ∧
      ((∀ i j : ℤ, 0 ≤ i → i ≤ 63 → 0 ≤ j → j ≤ 63 → (img i j).isSome) →
        (texture_sample img x y).isSome) := by
  have hmod : ∀ t : ℚ, 0 ≤ pymod1 t ∧ pymod1 t < 1 := by
    intro t
    unfold pymod1
    constructor
    · have := Int.floor_le t
      linarith
    · have := Int.lt_floor_add_one t
      linarith
  have hidx : ∀ t : ℚ, 0 ≤ sample_index t ∧ sample_index t ≤ 63 := by
    intro t
    obtain ⟨h0, h1⟩ := hmod t
    unfold sample_index TEXTURE_SIZE
    have hnn : (0 : ℚ) ≤ pymod1 t * (64 : ℕ) := by positivity
    rw [pyint_of_nonneg hnn]
    constructor
    · exact Int.floor_nonneg.mpr hnn
    · have hlt : pymod1 t * ((64 : ℕ) : ℚ) < 64 := by push_cast; nlinarith
      have : ⌊pymod1 t * ((64 : ℕ) : ℚ)⌋ < 64 := Int.floor_lt.mpr (by exact_mod_cast hlt)
      omega
  intro x y img
  refine ⟨hmod x, hidx x, ?_⟩
  intro himg
  unfold texture_sample
  exact himg _ _ (hidx x).1 (hidx x).2 (hidx y).1 (hidx y).2

/-- Witness for C9 at `(x, y) = (0, 0)` over a total image. -/
theorem C9_texture_sample_witness :
    (texture_sample (fun _ _ => some (0, 0, 0)) 0 0).isSome :=
  (C9_texture_sample_in_bounds 0 0 (fun _ _ => some (0, 0, 0))).2.2
    (fun _ _ _ _ _ _ => rfl)

/-- C4: for every integer cell coordinate inside `[0,20) × [0,10)` the wall
query returns the stored wall id; outside that range it returns the sentinel
255; and the sentinel differs from every stored wall id, including 0. -/
theorem C4_map_square_sentinel :
    ∀ x y : ℤ,
      ((0 ≤ x ∧ x < 20 ∧ 0 ≤ y ∧ y < 10) → map_square (x : ℚ) (y : ℚ) = wallAt x y) ∧
      (¬(0 ≤ x ∧ x < 20 ∧ 0 ≤ y ∧ y < 10) → map_square (x : ℚ) (y : ℚ) = 255) ∧
      (∀ i : ℕ, i < 20 → ∀ j : ℕ, j < 10 → wallAt i j ≠ 255) ∧ (255 : ℕ) ≠ 0 := by
  intro x y
  rw [map_square_eq, pyint_intCast, pyint_intCast]
  refine ⟨?_, ?_, wallAt_ne_sentinel, by decide⟩
  · intro h
    rw [if_neg (by omega)]
  · intro h
    rw [if_pos (by omega)]

/-- Witness for C4 at the in-bounds cell `(2, 1)` and out-of-bounds `(-1, 1)`. -/
theorem C4_map_square_witness :
    map_square ((2 : ℤ) : ℚ) ((1 : ℤ) : ℚ) = wallAt 2 1 ∧ wallAt 2 1 = 0 ∧
      map_square ((-1 : ℤ) : ℚ) ((1 : ℤ) : ℚ) = 255 :=
  ⟨(C4_map_square_sentinel 2 1).1 (by norm_num), by decide,
   (C4_map_square_sentinel (-1) 1).2.1 (by norm_num)⟩

/-- C10: the map query truncates toward zero, so a coordinate strictly
between -1 and 0 resolves to row/column 0 and returns that stored id; the
sentinel appears exactly for coordinates at most -1 or at least the grid
extent. -/
theorem C10_map_square_truncation :
    ∀ x y : ℚ,
      (-1 < x → x < 0 → 0 ≤ pyint y → pyint y < 10 →
        map_square x y = wallAt 0 (pyint y)) ∧
      (-1 < y → y < 0 → 0 ≤ pyint x → pyint x < 20 →
        map_square x y = wallAt (pyint x) 0) ∧
      (map_square x y = 255 ↔ x ≤ -1 ∨ 20 ≤ x ∨ y ≤ -1 ∨ 10 ≤ y) := by
  intro x y
  rw [map_square_eq]
  refine ⟨?_, ?_, ?_⟩
  · intro h1 h2 hy0 hy1
    rw [pyint_neg_fraction h1 h2]
    rw [if_neg (by omega)]
  · intro h1 h2 hx0 hx1
    rw [pyint_neg_fraction h1 h2]
    rw [if_neg (by omega)]
  · constructor
    · intro h
      by_contra hc
      push_neg at hc
      obtain ⟨hx1, hx2, hy1, hy2⟩ := hc
      have hx1' : ¬ pyint x < 0 := by
        rw [pyint_lt_zero_iff]; exact not_le.mpr hx1
      have hx2' : ¬ (20 : ℤ) ≤ pyint x := by
        rw [le_pyint_iff (by norm_num)]
        exact not_le.mpr (by exact_mod_cast hx2)
      have hy1' : ¬ pyint y < 0 := by
        rw [pyint_lt_zero_iff]; exact not_le.mpr hy1
      have hy2' : ¬ (10 : ℤ) ≤ pyint y := by
        rw [le_pyint_iff (by norm_num)]
        exact not_le.mpr (by exact_mod_cast hy2)
      rw [if_neg (by tauto)] at h
      exact wallAt_int_ne_sentinel (by omega) (by omega) (by omega) (by omega) h
    · intro h
      refine if_pos ?_
      rcases h with h | h | h | h
      · exact Or.inl ((pyint_lt_zero_iff x).mpr h)
      · refine Or.inr (Or.inl ?_)
        rw [le_pyint_iff (by norm_num)]
        exact_mod_cast h
      · exact Or.inr (Or.inr (Or.inl ((pyint_lt_zero_iff y).mpr h)))
      · refine Or.inr (Or.inr (Or.inr ?_))
        rw [le_pyint_iff (by norm_num)]
        exact_mod_cast h

/-- Witness for C10 at `x = -1/2` (resolves to column 0) and at `x = -3/2`
(yields the sentinel). -/
theorem C10_map_square_truncation_witness :
    map_square (-1/2) (3/2) = wallAt 0 1 ∧ wallAt 0 1 = 1 ∧
      map_square (-3/2) (3/2) = 255 := by
  have hp : pyint (3/2 : ℚ) = 1 :=
    pyint_eq_of_bounds (by norm_num) (by norm_num) (by norm_num)
  refine ⟨?_, by decide,
    (C10_map_square_truncation (-3/2) (3/2)).2.2.mpr (Or.inl (by norm_num))⟩
  have h := (C10_map_square_truncation (-1/2) (3/2)).1 (by norm_num) (by norm_num)
    (by rw [hp]; norm_num) (by rw [hp]; norm_num)
  rwa [hp] at h

theorem marchLoop_spec (ray_step : Vec2 ℚ) :
    ∀ fuel j : ℕ, ∀ ray : Vec2 ℚ, j ≤ 201 → 201 - j < fuel →
      (j : ℚ) * step_size ≤ (marchLoop ray_step fuel ((j : ℚ) * step_size) ray).2.1 ∧
      (marchLoop ray_step fuel ((j : ℚ) * step_size) ray).2.1 ≤ 201 * step_size ∧
      ((marchLoop ray_step fuel ((j : ℚ) * step_size) ray).1 = -1 →
        (marchLoop ray_step fuel ((j : ℚ) * step_size) ray).2.1 = 201 * step_size) := by
  intro fuel
  induction fuel with
  | zero => intro j ray hj hf; omega
  | succ fuel ih =>
    intro j ray hj hf
    rcases Nat.lt_or_ge j 201 with hj200 | hj201
    · have hcond : ((j : ℚ)) * step_size ≤ BLACK_DISTANCE := by
        unfold step_size BLACK_DISTANCE
        have : (j : ℚ) ≤ 200 := by exact_mod_cast Nat.lt_succ_iff.mp hj200
        norm_num
        linarith
      have hstep : ((j : ℚ)) * step_size + step_size = ((j + 1 : ℕ) : ℚ) * step_size := by
        push_cast
        ring
      simp only [marchLoop, if_pos hcond]
      split
      · next hsq =>
        refine ⟨?_, ?_, ?_⟩
        · show (j : ℚ) * step_size ≤ (j : ℚ) * step_size + step_size
          have : (0 : ℚ) < step_size := by norm_num [step_size]
          linarith
        · show (j : ℚ) * step_size + step_size ≤ 201 * step_size
          rw [hstep]
          have h1 : ((j + 1 : ℕ) : ℚ) ≤ 201 := by exact_mod_cast hj200
          have hs : (0 : ℚ) < step_size := by norm_num [step_size]
          nlinarith
        · intro habs
          exfalso
          have : ((map_square (ray + ray_step).x (ray + ray_step).y : ℕ) : ℤ) = -1 := habs
          omega
      · next hsq =>
        rw [hstep]
        have h1 := ih (j + 1) (ray + ray_step) (by omega) (by omega)
        refine ⟨le_trans ?_ h1.1, h1.2.1, h1.2.2⟩
        rw [← hstep]
        have : (0 : ℚ) < step_size := by norm_num [step_size]
        linarith
    · have hj' : j = 201 := by omega
      subst hj'
      have hcond : ¬ ((201 : ℕ) : ℚ) * step_size ≤ BLACK_DISTANCE := by
        norm_num [step_size, BLACK_DISTANCE]
      simp only [marchLoop, if_neg hcond]
      norm_num

/-- C1: for every screen column index (indeed for every player state and
column), `cast_ray` returns a perpendicular distance within
`[0, BLACK_DISTANCE + step_size]`, and when the march reaches the cutoff
without entering a non-empty cell it returns the reserved no-hit id -1 with
distance exactly `BLACK_DISTANCE + step_size`, i.e. exactly `BLACK_DISTANCE`
within one step of tolerance. -/
theorem C1_cast_ray_distance_bounds (pos dir plane : Vec2 ℚ) (pixwidth pixel_x : ℕ) :
    0 ≤ (cast_ray pos dir plane pixwidth pixel_x).2.1 ∧
    (cast_ray pos dir plane pixwidth pixel_x).2.1 ≤ BLACK_DISTANCE + step_size ∧
    ((cast_ray pos dir plane pixwidth pixel_x).1 = -1 →
      (cast_ray pos dir plane pixwidth pixel_x).2.1 = BLACK_DISTANCE + step_size ∧
      |(cast_ray pos dir plane pixwidth pixel_x).2.1 - BLACK_DISTANCE| ≤ step_size) := by
  have h0 : (0 : ℚ) = ((0 : ℕ) : ℚ) * step_size := by norm_num
  have htot : (201 : ℚ) * step_size = BLACK_DISTANCE + step_size := by
    norm_num [step_size, BLACK_DISTANCE]
  unfold cast_ray
  have h := marchLoop_spec (step_size • (dir + (((pixel_x : ℚ) / (pixwidth : ℚ) - 0.5) * 2) • plane))
    202 0 pos (by omega) (by omega)
  rw [← h0] at h
  obtain ⟨hlo, hhi, hmiss⟩ := h
  set m := marchLoop (step_size • (dir + (((pixel_x : ℚ) / (pixwidth : ℚ) - 0.5) * 2) • plane))
    202 0 pos with hm
  simp only []
  split
  · next hsq =>
    refine ⟨by simpa using hlo, by rw [← htot]; exact hhi, ?_⟩
    intro _
    have hd := hmiss hsq
    rw [hd, htot]
    refine ⟨rfl, ?_⟩
    rw [abs_of_nonneg (by norm_num [step_size, BLACK_DISTANCE])]
    norm_num
  · next hsq =>
    refine ⟨by simpa using hlo, by rw [← htot]; exact hhi, ?_⟩
    intro hc
    exact absurd hc hsq

theorem set_pixel_zbuffer_le (st : PixState) (pw x y : ℕ) (z b : ℚ) (rgba : Option Rgba)
    (i : ℕ) : (set_pixel st pw x y z b rgba).zbuffer i ≤ st.zbuffer i := by
  unfold set_pixel
  match rgba with
  | none => exact le_rfl
  | some c =>
    dsimp only
    by_cases hlt : (z : WithTop ℚ) < st.zbuffer (x + y * pw)
    · rw [if_pos hlt]
      dsimp only
      by_cases hi : i = x + y * pw
      · subst hi
        rw [if_pos rfl]
        exact le_of_lt hlt
      · rw [if_neg hi]
    · rw [if_neg hlt]

theorem apply_writes_zbuffer_le (ws : List PixWrite) :
    ∀ (st : PixState) (i : ℕ), (apply_writes st ws).zbuffer i ≤ st.zbuffer i := by
  induction ws with
  | nil => intro st i; exact le_rfl
  | cons w ws ih =>
    intro st i
    have h1 := ih (set_pixel st w.pixwidth w.x w.y w.z w.b w.rgba) i
    have h2 := set_pixel_zbuffer_le st w.pixwidth w.x w.y w.z w.b w.rgba i
    exact le_trans h1 h2

/-- C5: the depth buffer starts the tick with every cell at +infinity, every
cell's stored value is non-increasing across any sequence of `set_pixel`
calls, and a cell's depth actually changes only when the incoming depth is
strictly nearer than the stored one (and then the new depth is stored). -/
theorem C5_zbuffer_reset_monotone :
    (∀ (st : PixState) (i : ℕ), (tick_reset st).zbuffer i = ⊤) ∧
    (∀ (st : PixState) (ws : List PixWrite) (i : ℕ),
      (apply_writes st ws).zbuffer i ≤ st.zbuffer i) ∧
    (∀ (st : PixState) (pw x y : ℕ) (z b : ℚ) (rgba : Option Rgba) (i : ℕ),
      (set_pixel st pw x y z b rgba).zbuffer i ≠ st.zbuffer i →
      (set_pixel st pw x y z b rgba).zbuffer i = (z : WithTop ℚ) ∧
      (z : WithTop ℚ) < st.zbuffer i) := by
  refine ⟨fun st i => rfl, fun st ws i => apply_writes_zbuffer_le ws st i, ?_⟩
  intro st pw x y z b rgba i hne
  unfold set_pixel at hne ⊢
  match rgba with
  | none => exact absurd rfl hne
  | some c =>
    dsimp only at hne ⊢
    by_cases hlt : (z : WithTop ℚ) < st.zbuffer (x + y * pw)
    · rw [if_pos hlt] at hne ⊢
      dsimp only at hne ⊢
      by_cases hi : i = x + y * pw
      · subst hi
        rw [if_pos rfl]
        exact ⟨rfl, hlt⟩
      · rw [if_neg hi] at hne
        exact absurd rfl hne
    · rw [if_neg hlt] at hne
      exact absurd rfl hne

/-- Witness for C5: reset makes cell 0 infinite; a concrete write sequence
is non-increasing; a depth change stores the strictly nearer value 1. -/
theorem C5_zbuffer_witness :
    (tick_reset ⟨fun _ => some 2, fun _ => none⟩).zbuffer 0 = ⊤ ∧
    (apply_writes ⟨fun _ => some 2, fun _ => none⟩
        [⟨1, 0, 0, 1, 1, some (0, 0, 0, 0)⟩]).zbuffer 0 ≤
      (⟨fun _ => some 2, fun _ => none⟩ : PixState).zbuffer 0 ∧
    ((set_pixel ⟨fun _ => some 2, fun _ => none⟩ 1 0 0 1 1 (some (0, 0, 0, 0))).zbuffer 0 =
        ((1 : ℚ) : WithTop ℚ) ∧
      ((1 : ℚ) : WithTop ℚ) < (⟨fun _ => some 2, fun _ => none⟩ : PixState).zbuffer 0) :=
  ⟨C5_zbuffer_reset_monotone.1 ⟨fun _ => some 2, fun _ => none⟩ 0,
   C5_zbuffer_reset_monotone.2.1 ⟨fun _ => some 2, fun _ => none⟩
     [⟨1, 0, 0, 1, 1, some (0, 0, 0, 0)⟩] 0,
   C5_zbuffer_reset_monotone.2.2 ⟨fun _ => some 2, fun _ => none⟩ 1 0 0 1 1
     (some (0, 0, 0, 0)) 0 (by decide)⟩

theorem set_pixel_black (st : PixState) (pw x yy : ℕ) (d : ℚ)
    (hI : ∀ i, st.zbuffer i = ⊤ ∨
      (st.zbuffer i = (d : WithTop ℚ) ∧ st.image i = some (0, 0, 0, 0))) :
    (∀ i, (set_pixel st pw x yy d 1 (some (0, 0, 0, 0))).zbuffer i = ⊤ ∨
      ((set_pixel st pw x yy d 1 (some (0, 0, 0, 0))).zbuffer i = (d : WithTop ℚ) ∧
       (set_pixel st pw x yy d 1 (some (0, 0, 0, 0))).image i = some (0, 0, 0, 0))) ∧
    ((set_pixel st pw x yy d 1 (some (0, 0, 0, 0))).zbuffer (x + yy * pw) = (d : WithTop ℚ) ∧
     (set_pixel st pw x yy d 1 (some (0, 0, 0, 0))).image (x + yy * pw) = some (0, 0, 0, 0)) ∧
    (∀ i, st.zbuffer i = (d : WithTop ℚ) ∧ st.image i = some (0, 0, 0, 0) →
      (set_pixel st pw x yy d 1 (some (0, 0, 0, 0))).zbuffer i = (d : WithTop ℚ) ∧
      (set_pixel st pw x yy d 1 (some (0, 0, 0, 0))).image i = some (0, 0, 0, 0)) := by
  have hcol : (if 0 < d ∧ (1 : ℚ) ≠ 1 then color_brightness (0, 0, 0, 0) 1 else
      ((0, 0, 0, 0) : Rgba)) = (0, 0, 0, 0) := by
    rw [if_neg]
    simp
  unfold set_pixel
  dsimp only
  by_cases hlt : (d : WithTop ℚ) < st.zbuffer (x + yy * pw)
  · rw [if_pos hlt]
    dsimp only
    refine ⟨?_, ?_, ?_⟩
    · intro i
      by_cases hi : i = x + yy * pw
      · subst hi
        rw [if_pos rfl, if_pos rfl, hcol]
        exact Or.inr ⟨rfl, rfl⟩
      · rw [if_neg hi, if_neg hi]
        exact hI i
    · rw [if_pos rfl, if_pos rfl, hcol]
      exact ⟨rfl, rfl⟩
    · intro i hdi
      by_cases hi : i = x + yy * pw
      · subst hi
        rw [if_pos rfl, if_pos rfl, hcol]
        exact ⟨rfl, rfl⟩
      · rw [if_neg hi, if_neg hi]
        exact hdi
  · rw [if_neg hlt]
    refine ⟨hI, ?_, fun i hdi => hdi⟩
    rcases hI (x + yy * pw) with h | h
    · exact absurd (h ▸ WithTop.coe_lt_top d) hlt
    · exact h

theorem black_fold_preserves (pw x sy : ℕ) (d : ℚ) :
    ∀ (l : List ℕ) (st : PixState),
      (∀ i, st.zbuffer i = ⊤ ∨
        (st.zbuffer i = (d : WithTop ℚ) ∧ st.image i = some (0, 0, 0, 0))) →
      (∀ i, (black_fold pw x sy d l st).zbuffer i = ⊤ ∨
        ((black_fold pw x sy d l st).zbuffer i = (d : WithTop ℚ) ∧
         (black_fold pw x sy d l st).image i = some (0, 0, 0, 0))) ∧
      (∀ i, st.zbuffer i = (d : WithTop ℚ) ∧ st.image i = some (0, 0, 0, 0) →
        (black_fold pw x sy d l st).zbuffer i = (d : WithTop ℚ) ∧
        (black_fold pw x sy d l st).image i = some (0, 0, 0, 0)) := by
  intro l
  induction l with
  | nil => intro st hI; exact ⟨hI, fun i hdi => hdi⟩
  | cons k l ih =>
    intro st hI
    have hs := set_pixel_black st pw x (sy + k) d hI
    have hrec := ih (set_pixel st pw x (sy + k) d 1 (some (0, 0, 0, 0))) hs.1
    exact ⟨hrec.1, fun i hdi => hrec.2 i (hs.2.2 i hdi)⟩

theorem black_fold_writes (pw x sy : ℕ) (d : ℚ) :
    ∀ (l : List ℕ) (st : PixState),
      (∀ i, st.zbuffer i = ⊤ ∨
        (st.zbuffer i = (d : WithTop ℚ) ∧ st.image i = some (0, 0, 0, 0))) →
      ∀ k ∈ l, (black_fold pw x sy d l st).zbuffer (x + (sy + k) * pw) = (d : WithTop ℚ) ∧
        (black_fold pw x sy d l st).image (x + (sy + k) * pw) = some (0, 0, 0, 0) := by
  intro l
  induction l with
  | nil => intro st hI k hk; cases hk
  | cons k0 l ih =>
    intro st hI k hk
    have hs := set_pixel_black st pw x (sy + k0) d hI
    rcases List.mem_cons.mp hk with hk0 | hkl
    · subst hk0
      exact (black_fold_preserves pw x sy d l _ hs.1).2 _ hs.2.1
    · exact ih _ hs.1 k hkl

theorem draw_black_column_eq (st : PixState) (pw ph x : ℕ) (ceiling : ℤ) (d : ℚ) :
    draw_black_column st pw ph x ceiling d =
      black_fold pw x (max 0 ceiling).toNat d
        (List.range ((ph : ℤ) - 2 * max 0 ceiling).toNat) st := rfl

/-- C6 counterexample: the color `(0, 0, 0, 0)` passed by `draw_black_column`
is a truthy 4-tuple, so on a 1x2 screen a miss column at distance 4.02 does
advance the depth buffer (cell 0 changes from infinity to 4.02) and stores a
black, alpha-0 color, contradicting the claim that the depth buffer is left
unchanged and only no-color pixels are written. -/
theorem C6_draw_black_column_counterexample :
    (draw_black_column ⟨fun _ => ⊤, fun _ => none⟩ 1 2 0 0 (201/50)).zbuffer 0 =
      ((201/50 : ℚ) : WithTop ℚ) ∧
    (draw_black_column ⟨fun _ => ⊤, fun _ => none⟩ 1 2 0 0 (201/50)).zbuffer 0 ≠
      (⟨fun _ => ⊤, fun _ => none⟩ : PixState).zbuffer 0 ∧
    (draw_black_column ⟨fun _ => ⊤, fun _ => none⟩ 1 2 0 0 (201/50)).image 0 =
      some (0, 0, 0, 0) := by
  rw [draw_black_column_eq]
  have e1 : (max 0 (0 : ℤ)).toNat = 0 := by decide
  have e2 : (((2 : ℕ) : ℤ) - 2 * max 0 (0 : ℤ)).toNat = 2 := by decide
  rw [e1, e2]
  have h := black_fold_writes 1 0 0 (201/50) (List.range 2)
    ⟨fun _ => ⊤, fun _ => none⟩ (fun i => Or.inl rfl) 0 (by decide)
  simp only [Nat.add_zero, Nat.zero_add, Nat.mul_one] at h
  refine ⟨h.1, ?_, h.2⟩
  rw [h.1]
  exact fun hc => WithTop.coe_ne_top hc

/-- C6 (amended): for every miss column, `draw_black_column` writes the
black, fully transparent-alpha color `(0,0,0,0)` over the column's vertical
extent and does advance the depth buffer: starting from the tick-reset
buffer, every touched depth cell is set to the miss distance; since the miss
distance is at least `BLACK_DISTANCE` and all later floor/ceiling/sprite
draws use depths strictly below `BLACK_DISTANCE`, a later draw may still
write there. -/
theorem C6_draw_black_column_amended :
    ∀ (st : PixState) (pw ph x : ℕ) (ceiling : ℤ) (d : ℚ),
      (∀ i, st.zbuffer i = ⊤) →
      ∀ k : ℕ, k < ((ph : ℤ) - 2 * max 0 ceiling).toNat →
        ((draw_black_column st pw ph x ceiling d).zbuffer
            (x + ((max 0 ceiling).toNat + k) * pw) = (d : WithTop ℚ) ∧
         (draw_black_column st pw ph x ceiling d).image
            (x + ((max 0 ceiling).toNat + k) * pw) = some (0, 0, 0, 0)) ∧
        (∀ z' : ℚ, z' < BLACK_DISTANCE → BLACK_DISTANCE ≤ d →
          (z' : WithTop ℚ) < (draw_black_column st pw ph x ceiling d).zbuffer
            (x + ((max 0 ceiling).toNat + k) * pw)) := by
  intro st pw ph x ceiling d hT k hk
  rw [draw_black_column_eq]
  have hI : ∀ i, st.zbuffer i = ⊤ ∨
      (st.zbuffer i = (d : WithTop ℚ) ∧ st.image i = some (0, 0, 0, 0)) :=
    fun i => Or.inl (hT i)
  have hw := black_fold_writes pw x (max 0 ceiling).toNat d
    (List.range ((ph : ℤ) - 2 * max 0 ceiling).toNat) st hI k (List.mem_range.mpr hk)
  refine ⟨hw, ?_⟩
  intro z' hz hbd
  rw [hw.1]
  exact WithTop.coe_lt_coe.mpr (by linarith)

/-- Witness for the amended C6 on a 1x2 screen with the reset buffer and the
miss distance 4.02: the touched cell holds 4.02 and a later depth 1 write
would still pass. -/
theorem C6_draw_black_column_amended_witness :
    ((draw_black_column ⟨fun _ => ⊤, fun _ => none⟩ 1 2 0 0 (201/50)).zbuffer
        (0 + ((max 0 (0 : ℤ)).toNat + 0) * 1) = ((201/50 : ℚ) : WithTop ℚ) ∧
     (draw_black_column ⟨fun _ => ⊤, fun _ => none⟩ 1 2 0 0 (201/50)).image
        (0 + ((max 0 (0 : ℤ)).toNat + 0) * 1) = some (0, 0, 0, 0)) ∧
    ((1 : ℚ) : WithTop ℚ) <
      (draw_black_column ⟨fun _ => ⊤, fun _ => none⟩ 1 2 0 0 (201/50)).zbuffer
        (0 + ((max 0 (0 : ℤ)).toNat + 0) * 1) :=
  have h := C6_draw_black_column_amended ⟨fun _ => ⊤, fun _ => none⟩ 1 2 0 0 (201/50)
    (fun _ => rfl) 0 (by decide)
  ⟨h.1, h.2 1 (by norm_num [BLACK_DISTANCE]) (by norm_num [BLACK_DISTANCE])⟩

theorem map_square_pyint (x y : ℚ) :
    map_square x y = map_square ((pyint x : ℤ) : ℚ) ((pyint y : ℤ) : ℚ) := by
  rw [map_square_eq, map_square_eq, pyint_intCast, pyint_intCast]

theorem border_solid_nat :
    ∀ i : ℕ, i < 20 → ∀ j : ℕ, j < 10 →
      (i = 0 ∨ i = 19 ∨ j = 0 ∨ j = 9) → wallAt i j ≠ 0 := by
  decide

theorem wallAt_toNat (a b : ℤ) : wallAt a b = wallAt a.toNat b.toNat := by
  unfold wallAt
  rw [Int.toNat_natCast, Int.toNat_natCast]

theorem open_cell_bounds {x y : ℚ} (h : map_square x y = 0) :
    1 ≤ pyint x ∧ pyint x ≤ 18 ∧ 1 ≤ pyint y ∧ pyint y ≤ 8 ∧
      wallAt (pyint x) (pyint y) = 0 := by
  rw [map_square_eq] at h
  split at h
  · exact absurd h (by norm_num)
  · next hg =>
    push_neg at hg
    obtain ⟨h1, h2, h3, h4⟩ := hg
    have hb := border_solid_nat (pyint x).toNat (by omega) (pyint y).toNat (by omega)
    rw [← wallAt_toNat] at hb
    have hno : ¬((pyint x).toNat = 0 ∨ (pyint x).toNat = 19 ∨
        (pyint y).toNat = 0 ∨ (pyint y).toNat = 9) := fun hc => hb hc h
    push_neg at hno
    refine ⟨by omega, by omega, by omega, by omega, h⟩

theorem pyint_bounds_of_pos {x : ℚ} (h : 1 ≤ pyint x) :
    ((pyint x : ℤ) : ℚ) ≤ x ∧ x < ((pyint x : ℤ) : ℚ) + 1 := by
  have hx1 : (1 : ℚ) ≤ x := by
    have h2 : ((1 : ℤ) : ℚ) ≤ x := (@le_pyint_iff 1 (by norm_num) x).mp h
    exact_mod_cast h2
  have hfl : pyint x = ⌊x⌋ := pyint_of_nonneg (by linarith)
  rw [hfl]
  exact ⟨Int.floor_le x, Int.lt_floor_add_one x⟩

theorem snap_axis (w : ℤ → ℕ) (c : ℤ) (t t1 t2 : ℚ)
    (hc : 1 ≤ c) (ht1 : (c : ℚ) ≤ t) (ht2 : t < (c : ℚ) + 1) (hopen : w c = 0)
    (e1 : t1 = if w (pyint (t + 0.1)) ≠ 0 then (pyint t : ℚ) + 0.9 else t)
    (e2 : t2 = if w (pyint (t1 - 0.1)) ≠ 0 then (pyint t1 : ℚ) + 0.1 else t1) :
    ((c : ℚ) ≤ t2 ∧ t2 < (c : ℚ) + 1) ∧
    (w (c + 1) ≠ 0 → t2 ≤ (c : ℚ) + 0.9) ∧
    (w (c - 1) ≠ 0 → (c : ℚ) + 0.1 ≤ t2) := by
  have hcq : (1 : ℚ) ≤ (c : ℚ) := by exact_mod_cast hc
  have h0t : (0 : ℚ) ≤ t := by linarith
  have hpt : pyint t = c := pyint_eq_of_bounds h0t ht1 (by exact_mod_cast ht2)
  have step1 : ((c : ℚ) ≤ t1 ∧ t1 < (c : ℚ) + 1) ∧ (w (c + 1) ≠ 0 → t1 ≤ (c : ℚ) + 0.9) := by
    by_cases hsplit : t < (c : ℚ) + 0.9
    · have hp1 : pyint (t + 0.1) = c :=
        pyint_eq_of_bounds (by linarith) (by linarith) (by norm_num; linarith)
      rw [hp1] at e1
      by_cases hw : w c ≠ 0
      · exact absurd hopen hw
      · rw [if_neg hw] at e1
        subst e1
        exact ⟨⟨ht1, ht2⟩, fun _ => by linarith⟩
    · push_neg at hsplit
      have hp1 : pyint (t + 0.1) = c + 1 := by
        refine pyint_eq_of_bounds (by linarith) ?_ ?_
        · push_cast
          norm_num
          linarith
        · push_cast
          norm_num
          linarith
      rw [hp1, hpt] at e1
      by_cases hw : w (c + 1) ≠ 0
      · rw [if_pos hw] at e1
        subst e1
        constructor
        · constructor
          · norm_num
          · norm_num
        · intro _
          norm_num
      · rw [if_neg hw] at e1
        subst e1
        exact ⟨⟨ht1, ht2⟩, fun hcon => absurd hcon hw⟩
  obtain ⟨⟨hs1, hs2⟩, hsnap⟩ := step1
  have hpt1 : pyint t1 = c := pyint_eq_of_bounds (by linarith) hs1 (by exact_mod_cast hs2)
  by_cases hge : (c : ℚ) + 0.1 ≤ t1
  · have hp2 : pyint (t1 - 0.1) = c := by
      refine pyint_eq_of_bounds ?_ ?_ ?_
      · norm_num at hge ⊢
        linarith
      · norm_num at hge ⊢
        linarith
      · norm_num at hs2 ⊢
        linarith
    rw [hp2] at e2
    by_cases hw : w c ≠ 0
    · exact absurd hopen hw
    · rw [if_neg hw] at e2
      subst e2
      exact ⟨⟨hs1, hs2⟩, fun hcon => hsnap hcon, fun _ => hge⟩
  · push_neg at hge
    have hp2 : pyint (t1 - 0.1) = c - 1 := by
      refine pyint_eq_of_bounds ?_ ?_ ?_
      · norm_num at hge ⊢
        linarith
      · push_cast
        norm_num at hge ⊢
        linarith
      · push_cast
        norm_num at hge ⊢
        linarith
    rw [hp2, hpt1] at e2
    by_cases hw : w (c - 1) ≠ 0
    · rw [if_pos hw] at e2
      subst e2
      constructor
      · constructor
        · norm_num
        · norm_num
      · exact ⟨fun _ => by norm_num, fun _ => le_rfl⟩
    · rw [if_neg hw] at e2
      subst e2
      exact ⟨⟨hs1, hs2⟩, fun hcon => hsnap hcon, fun hcon => absurd hcon hw⟩

theorem probe_x_spec {x y : ℚ} (h : map_square x y = 0) :
    ((pyint x : ℚ) ≤ probe_x x y ∧ probe_x x y < (pyint x : ℚ) + 1) ∧
    (map_square ((pyint x + 1 : ℤ) : ℚ) ((pyint y : ℤ) : ℚ) ≠ 0 →
      probe_x x y ≤ (pyint x : ℚ) + 0.9) ∧
    (map_square ((pyint x - 1 : ℤ) : ℚ) ((pyint y : ℤ) : ℚ) ≠ 0 →
      (pyint x : ℚ) + 0.1 ≤ probe_x x y) := by
  obtain ⟨hc1, hc2, hd1, hd2, hopen⟩ := open_cell_bounds h
  have hb := pyint_bounds_of_pos hc1
  have hwopen : map_square ((pyint x : ℤ) : ℚ) ((pyint y : ℤ) : ℚ) = 0 := by
    rw [← map_square_pyint]
    exact h
  exact snap_axis (fun m => map_square ((m : ℤ) : ℚ) ((pyint y : ℤ) : ℚ)) (pyint x) x
    (if map_square (x + 0.1) y ≠ 0 then (pyint x : ℚ) + 0.9 else x) (probe_x x y)
    hc1 hb.1 hb.2 hwopen
    (by rw [map_square_pyint (x + 0.1) y])
    (by
      unfold probe_x
      dsimp only
      rw [map_square_pyint (x + 0.1) y,
        map_square_pyint
          ((if map_square ((pyint (x + 0.1) : ℤ) : ℚ) ((pyint y : ℤ) : ℚ) ≠ 0 then
              (pyint x : ℚ) + 0.9 else x) - 0.1) y])

theorem probe_y_spec {x2 y : ℚ} (h : map_square x2 y = 0) :
    ((pyint y : ℚ) ≤ probe_y x2 y ∧ probe_y x2 y < (pyint y : ℚ) + 1) ∧
    (map_square ((pyint x2 : ℤ) : ℚ) ((pyint y + 1 : ℤ) : ℚ) ≠ 0 →
      probe_y x2 y ≤ (pyint y : ℚ) + 0.9) ∧
    (map_square ((pyint x2 : ℤ) : ℚ) ((pyint y - 1 : ℤ) : ℚ) ≠ 0 →
      (pyint y : ℚ) + 0.1 ≤ probe_y x2 y) := by
  obtain ⟨hc1, hc2, hd1, hd2, hopen⟩ := open_cell_bounds h
  have hb := pyint_bounds_of_pos hd1
  have hwopen : map_square ((pyint x2 : ℤ) : ℚ) ((pyint y : ℤ) : ℚ) = 0 := by
    rw [← map_square_pyint]
    exact h
  exact snap_axis (fun m => map_square ((pyint x2 : ℤ) : ℚ) ((m : ℤ) : ℚ)) (pyint y) y
    (if map_square x2 (y + 0.1) ≠ 0 then (pyint y : ℚ) + 0.9 else y) (probe_y x2 y)
    hd1 hb.1 hb.2 hwopen
    (by rw [map_square_pyint x2 (y + 0.1)])
    (by
      unfold probe_y
      dsimp only
      rw [map_square_pyint x2 (y + 0.1),
        map_square_pyint x2
          ((if map_square ((pyint x2 : ℤ) : ℚ) ((pyint (y + 0.1) : ℤ) : ℚ) ≠ 0 then
              (pyint y : ℚ) + 0.9 else y) - 0.1)])

theorem move_player_eq (p : Vec2 ℚ) (x y : ℚ) :
    move_player p x y =
      if map_square x y = 0 then ⟨probe_x x y, probe_y (probe_x x y) y⟩ else p := rfl

/-- C7: a move into a solid (non-empty or off-map) destination cell leaves
the player position unchanged; a move into an open destination cell keeps the
position inside that cell, and whenever an axis-adjacent neighboring cell is
solid the corresponding coordinate ends at least 0.1 world units away from
the shared boundary, thanks to the four sequential clearance probes. -/
theorem C7_move_player_clearance :
    ∀ (p : Vec2 ℚ) (x y : ℚ),
      (map_square x y ≠ 0 → move_player p x y = p) ∧
      (map_square x y = 0 →
        (pyint (move_player p x y).x = pyint x ∧ pyint (move_player p x y).y = pyint y) ∧
        (map_square ((pyint x + 1 : ℤ) : ℚ) ((pyint y : ℤ) : ℚ) ≠ 0 →
          (move_player p x y).x + 0.1 ≤ (pyint x : ℚ) + 1) ∧
        (map_square ((pyint x - 1 : ℤ) : ℚ) ((pyint y : ℤ) : ℚ) ≠ 0 →
          (pyint x : ℚ) + 0.1 ≤ (move_player p x y).x) ∧
        (map_square ((pyint x : ℤ) : ℚ) ((pyint y + 1 : ℤ) : ℚ) ≠ 0 →
          (move_player p x y).y + 0.1 ≤ (pyint y : ℚ) + 1) ∧
        (map_square ((pyint x : ℤ) : ℚ) ((pyint y - 1 : ℤ) : ℚ) ≠ 0 →
          (pyint y : ℚ) + 0.1 ≤ (move_player p x y).y)) := by
  intro p x y
  constructor
  · intro h
    rw [move_player_eq, if_neg h]
  · intro h
    rw [move_player_eq, if_pos h]
    obtain ⟨hc1, hc2, hd1, hd2, hopenw⟩ := open_cell_bounds h
    obtain ⟨hpx, hsolidR, hsolidL⟩ := probe_x_spec h
    have hcq : (1 : ℚ) ≤ (pyint x : ℚ) := by exact_mod_cast hc1
    have hx2cell : pyint (probe_x x y) = pyint x :=
      pyint_eq_of_bounds (by linarith [hpx.1]) hpx.1 (by exact_mod_cast hpx.2)
    have h2 : map_square (probe_x x y) y = 0 := by
      rw [map_square_pyint (probe_x x y) y, hx2cell, ← map_square_pyint x y]
      exact h
    obtain ⟨hpy, hsolidU, hsolidD⟩ := probe_y_spec h2
    rw [hx2cell] at hsolidU hsolidD
    have hdq : (1 : ℚ) ≤ (pyint y : ℚ) := by exact_mod_cast hd1
    have hy2cell : pyint (probe_y (probe_x x y) y) = pyint y :=
      pyint_eq_of_bounds (by linarith [hpy.1]) hpy.1 (by exact_mod_cast hpy.2)
    refine ⟨⟨hx2cell, hy2cell⟩, ?_, ?_, ?_, ?_⟩
    · intro hs
      have := hsolidR hs
      show probe_x x y + 0.1 ≤ (pyint x : ℚ) + 1
      norm_num at this ⊢
      linarith
    · intro hs
      exact hsolidL hs
    · intro hs
      have := hsolidU hs
      show probe_y (probe_x x y) y + 0.1 ≤ (pyint y : ℚ) + 1
      norm_num at this ⊢
      linarith
    · intro hs
      exact hsolidD hs

/-- Witness for C7: the destination `(2.5, 1.5)` lies in the open cell
`(2, 1)` whose southern neighbor `(2, 0)` is a wall, so the final y keeps at
least 0.1 clearance from that wall. -/
theorem C7_move_player_clearance_witness :
    map_square (5/2 : ℚ) (3/2 : ℚ) = 0 ∧
    pyint (move_player ⟨0, 0⟩ (5/2) (3/2)).x = pyint (5/2 : ℚ) ∧
    (pyint (3/2 : ℚ) : ℚ) + 0.1 ≤ (move_player ⟨0, 0⟩ (5/2) (3/2)).y := by
  have hx : pyint (5/2 : ℚ) = 2 :=
    pyint_eq_of_bounds (by norm_num) (by norm_num) (by norm_num)
  have hy : pyint (3/2 : ℚ) = 1 :=
    pyint_eq_of_bounds (by norm_num) (by norm_num) (by norm_num)
  have hopen : map_square (5/2 : ℚ) (3/2 : ℚ) = 0 := by
    rw [map_square_pyint, hx, hy, map_square_eq, pyint_intCast, pyint_intCast,
      if_neg (by norm_num)]
    decide
  have hsolid : map_square ((pyint (5/2 : ℚ) : ℤ) : ℚ) ((pyint (3/2 : ℚ) - 1 : ℤ) : ℚ) ≠ 0 := by
    rw [hx, hy]
    show map_square ((2 : ℤ) : ℚ) (((0 : ℤ) : ℤ) : ℚ) ≠ 0
    rw [map_square_eq, pyint_intCast, pyint_intCast, if_neg (by norm_num)]
    decide
  refine ⟨hopen, ((C7_move_player_clearance ⟨0, 0⟩ (5/2) (3/2)).2 hopen).1.1, ?_⟩
  exact ((C7_move_player_clearance ⟨0, 0⟩ (5/2) (3/2)).2 hopen).2.2.2.2 hsolid

@[ext] theorem Vec2.ext {α : Type} {a b : Vec2 α} (hx : a.x = b.x) (hy : a.y = b.y) :
    a = b := by
  cases a
  cases b
  cases hx
  cases hy
  rfl

theorem atan2_pos_zero {y : ℝ} (hy : 0 < y) : atan2 y 0 = Real.pi / 2 := by
  unfold atan2
  rw [if_neg (lt_irrefl 0), if_neg (lt_irrefl 0), if_pos hy]

theorem pyintR_one : pyintR (1 : ℝ) = 1 := by
  unfold pyintR
  rw [if_pos (by norm_num)]
  exact Int.floor_one

theorem pyintR_frac : pyintR ((26 : ℝ) / 5) = 5 := by
  unfold pyintR
  rw [if_pos (by norm_num)]
  rw [Int.floor_eq_iff]
  constructor
  · norm_num
  · norm_num

theorem sc_eval : square_center ⟨1, 26/5⟩ = (⟨3/2, 11/2⟩ : Vec2 ℝ) := by
  unfold square_center
  dsimp only
  rw [pyintR_one, pyintR_frac]
  ext
  · norm_num
  · norm_num

theorem inter_acc_vertical_eval :
    intersection_with_mapsquare_accurate ⟨1, 2⟩ ⟨1, 26/5⟩ =
      (Intersection.LEFT, 0, ⟨1, 0⟩) := by
  have hd : (⟨1, 26/5⟩ - ⟨1, 2⟩ : Vec2 ℝ) = ⟨0, 16/5⟩ := by
    ext
    · show (1 : ℝ) - 1 = 0
      norm_num
    · show (26 : ℝ)/5 - 2 = 16/5
      norm_num
  have hv : ((⟨3/2, 11/2⟩ : Vec2 ℝ) + ⟨-0.5, -0.5⟩) - ⟨1, 2⟩ = ⟨0, 3⟩ := by
    ext
    · show (3 : ℝ)/2 + -0.5 - 1 = 0
      norm_num
    · show (11 : ℝ)/2 + -0.5 - 2 = 3
      norm_num
  have ha3 : Vec2.angle ⟨0, 3⟩ = Real.pi / 2 := by
    unfold Vec2.angle
    dsimp only
    exact atan2_pos_zero (by norm_num)
  have ha165 : Vec2.angle (⟨0, 16/5⟩ : Vec2 ℝ) = Real.pi / 2 := by
    unfold Vec2.angle
    dsimp only
    exact atan2_pos_zero (by norm_num)
  unfold intersection_with_mapsquare_accurate
  dsimp only
  rw [sc_eval]
  dsimp only
  rw [hd, hv, ha3, ha165]
  rw [if_pos (by norm_num : (1 : ℝ) < 3/2), if_pos (by norm_num : (2 : ℝ) < 11/2),
    if_neg (lt_irrefl (Real.pi / 2))]
  dsimp only
  rw [if_pos rfl]
  refine Prod.ext rfl (Prod.ext ?_ ?_)
  · show -(0 : ℝ) = 0
    norm_num
  · ext
    · show (3 : ℝ)/2 - 0.5 = 1
      norm_num
    · rfl

/-- C2 counterexample: for the axis-aligned ray from camera `(1, 2)` through
sample point `(1, 5.2)` the struck edge is LEFT and the guarded division is
skipped, but the degenerate intercept coordinate is 0.0, not the camera's
y coordinate 2 as the claim states. -/
theorem C2_degenerate_intercept_counterexample :
    ((⟨1, 26/5⟩ - ⟨1, 2⟩ : Vec2 ℝ)).x = 0 ∧
    (intersection_with_mapsquare_accurate ⟨1, 2⟩ ⟨1, 26/5⟩).1 = Intersection.LEFT ∧
    (intersection_with_mapsquare_accurate ⟨1, 2⟩ ⟨1, 26/5⟩).2.2.y ≠ (⟨1, 2⟩ : Vec2 ℝ).y := by
  refine ⟨?_, ?_, ?_⟩
  · show (1 : ℝ) - 1 = 0
    norm_num
  · rw [inter_acc_vertical_eval]
  · rw [inter_acc_vertical_eval]
    show (0 : ℝ) ≠ 2
    norm_num

/-- C2 (amended): when the ray is exactly axis-aligned, no division is
performed and the computation is total, but the degenerate intercept
coordinate defaults to 0.0 (not to the camera's corresponding coordinate):
on a TOP/BOTTOM edge with `direction.y = 0` the returned x is 0, and on a
LEFT/RIGHT edge with `direction.x = 0` the returned y is 0. -/
theorem C2_degenerate_intercept_amended :
    ∀ camera r : Vec2 ℝ,
      ((r - camera).y = 0 →
        ((intersection_with_mapsquare_accurate camera r).1 = Intersection.TOP ∨
         (intersection_with_mapsquare_accurate camera r).1 = Intersection.BOTTOM) →
        (intersection_with_mapsquare_accurate camera r).2.2.x = 0) ∧
      ((r - camera).x = 0 →
        ((intersection_with_mapsquare_accurate camera r).1 = Intersection.LEFT ∨
         (intersection_with_mapsquare_accurate camera r).1 = Intersection.RIGHT) →
        (intersection_with_mapsquare_accurate camera r).2.2.y = 0) := by
  intro camera r
  unfold intersection_with_mapsquare_accurate
  dsimp only
  split_ifs <;>
    refine ⟨fun h0 hs => ?_, fun h0 hs => ?_⟩ <;>
    first
      | (exact hs.elim)
      | rfl
      | (dsimp only; rfl)
      | (exact absurd h0 (by assumption))
      | (dsimp only at hs;
         rcases hs with hs | hs <;> first | (exact hs.elim) | (exact Intersection.noConfusion hs))
      | (rcases hs with hs | hs <;> first | (exact hs.elim) | (exact Intersection.noConfusion hs))

/-- Witness for the amended C2 at the concrete axis-aligned LEFT-edge input. -/
theorem C2_degenerate_intercept_amended_witness :
    ((⟨1, 26/5⟩ - ⟨1, 2⟩ : Vec2 ℝ)).x = 0 ∧
    (intersection_with_mapsquare_accurate ⟨1, 2⟩ ⟨1, 26/5⟩).2.2.y = 0 :=
  ⟨by show (1 : ℝ) - 1 = 0; norm_num,
   (C2_degenerate_intercept_amended ⟨1, 2⟩ ⟨1, 26/5⟩).2
     (by show (1 : ℝ) - 1 = 0; norm_num)
     (Or.inl (by rw [inter_acc_vertical_eval]))⟩

/-- C3 counterexample: the camera `(1, 2)` is strictly outside the unit cell
centered at `(1.5, 5.5)` and strictly inside the 20x10 map, yet for the
axis-aligned sample ray through `(1, 5.2)` the returned intersection point
`(1, 0)` lies strictly outside the cell boundary (its y is far below the
cell's bottom edge 5). -/
theorem C3_intersection_point_counterexample :
    ((⟨1, 2⟩ : Vec2 ℝ).y < (square_center ⟨1, 26/5⟩).y - 0.5) ∧
    (0 < (⟨1, 2⟩ : Vec2 ℝ).x ∧ (⟨1, 2⟩ : Vec2 ℝ).x < 20 ∧
     0 < (⟨1, 2⟩ : Vec2 ℝ).y ∧ (⟨1, 2⟩ : Vec2 ℝ).y < 10) ∧
    (intersection_with_mapsquare_accurate ⟨1, 2⟩ ⟨1, 26/5⟩).2.2.y <
      (square_center ⟨1, 26/5⟩).y - 0.5 := by
  rw [sc_eval, inter_acc_vertical_eval]
  refine ⟨?_, ⟨?_, ?_, ?_, ?_⟩, ?_⟩
  · show (2 : ℝ) < 11/2 - 0.5
    norm_num
  · show (0 : ℝ) < 1
    norm_num
  · show (1 : ℝ) < 20
    norm_num
  · show (0 : ℝ) < 2
    norm_num
  · show (2 : ℝ) < 10
    norm_num
  · show (0 : ℝ) < 11/2 - 0.5
    norm_num

/-- C3 (amended): for every camera and sample point, the point returned by
the exact edge classifier always lies on one of the four edge lines of the
struck cell (`x = center.x ± 0.5` or `y = center.y ± 0.5`); it need not lie
on the edge segment itself: in the axis-aligned degenerate case the other
coordinate defaults to 0, which can be strictly outside the cell boundary. -/
theorem C3_intersection_point_on_edge_line :
    ∀ camera r : Vec2 ℝ,
      (intersection_with_mapsquare_accurate camera r).2.2.x = (square_center r).x - 0.5 ∨
      (intersection_with_mapsquare_accurate camera r).2.2.x = (square_center r).x + 0.5 ∨
      (intersection_with_mapsquare_accurate camera r).2.2.y = (square_center r).y - 0.5 ∨
      (intersection_with_mapsquare_accurate camera r).2.2.y = (square_center r).y + 0.5 := by
  intro camera r
  unfold intersection_with_mapsquare_accurate
  dsimp only
  split_ifs <;>
    first
      | (exact Or.inl rfl)
      | (exact Or.inr (Or.inl rfl))
      | (exact Or.inr (Or.inr (Or.inl rfl)))
      | (exact Or.inr (Or.inr (Or.inr rfl)))
